import Mathlib

/-
Verification development for the cinc save-sync tool.

Shallow embedding of the core data model and algorithms:
paths are modelled as lists of characters, timestamps as integers,
and the filesystem as a partial map from paths to (mtime, content).
Each definition is translated from the corresponding Rust item
(file and function named in its doc comment).
-/

set_option maxRecDepth 4000

deriving instance DecidableEq for Except

namespace Cinc

/-- Paths and path-like strings are modelled as lists of characters. -/
abbrev Str := List Char

/-- UTC timestamps are modelled as integers (only ordering and equality matter). -/
abbrev Time := Int

/-! ## Path model (src/paths.rs, std::path) -/

/-- A path is absolute iff it starts with a slash (Unix semantics of
`Path::is_absolute`). -/
def isAbsolute (p : Str) : Bool := p.head? = some '/'

/-- `Path::join`: an absolute right operand replaces the left one, otherwise the
right operand is appended after a separator. -/
def pathJoin (a b : Str) : Str :=
  if isAbsolute b then b else if a = [] then b else a ++ '/' :: b

/-- `PathExt::join_good` (src/paths.rs): join that treats an absolute `other` as
relative by prefixing a dot to its leading slash. -/
def join_good (a b : Str) : Str :=
  if !isAbsolute b then pathJoin a b else pathJoin a ('.' :: b)

/-- `FilesystemStore::filename` (src/backends/filesystem.rs): resolve a remote
path against the backend root; an absolute path gets a dot prefixed so that it
is joined as a relative segment. -/
def filename (root f : Str) : Str :=
  if !isAbsolute f then pathJoin root f else pathJoin root ('.' :: f)

/-- Split a character list on slashes, keeping empty segments. -/
def splitSlash : Str → List Str
  | [] => [[]]
  | c :: cs =>
    if c = '/' then [] :: splitSlash cs
    else
      match splitSlash cs with
      | [] => [[c]]
      | s :: ss => (c :: s) :: ss

/-- The non-root components of a path: slash-separated segments with empty and
`.` segments dropped (the normalisation `Path::components` performs). -/
def relComps (p : Str) : List Str :=
  (splitSlash p).filter (fun s => !(s == []) && !(s == ['.']))

/-- `Path::components`, with a leading `"/"` marker component for absolute
paths (`Component::RootDir`). -/
def comps (p : Str) : List Str :=
  (if isAbsolute p then [['/']] else []) ++ relComps p

/-- One step of lexical path resolution: `..` pops the previous component
(staying put at the root marker, accumulating at the front of a relative
path), every other component is appended. -/
def normStep (st : List Str) (c : Str) : List Str :=
  if c = ['.', '.'] then
    match st.getLast? with
    | none => [c]
    | some l => if l = ['/'] then st else if l = ['.', '.'] then st ++ [c] else st.dropLast
  else st ++ [c]

/-- Lexical normal form of a path: its components with `..` resolved. This is
the on-disk location the kernel resolves the path to (absent symlinks). -/
def normalize (p : Str) : List Str := (comps p).foldl normStep []

/-- `p` resolves to a location at or below `root`: the normal form of `root`
is a component-prefix of the normal form of `p`. -/
def liesUnder (root p : Str) : Prop := normalize root <+: normalize p

instance (root p : Str) : Decidable (liesUnder root p) :=
  inferInstanceAs (Decidable (normalize root <+: normalize p))

/-! ## Template engine (src/manifest.rs) -/

/-- `TemplateError` (src/manifest.rs:158). -/
inductive TemplateError
  | noClosingDelim
  | failedToLocateDir (v : Str)
  | variableNotAvailable (v : Str)
  | unknownVariable (v : Str)
deriving DecidableEq

/-- Outcome space of `apply_substs`: a typed `TemplateError`, or the Rust
byte-slice panic that `&self.0[start+1..end]` raises when the `>` found by the
scanner sits before the `<` (the `>` search starts at the previous scan
position, not at the `<`). -/
inductive SubstError
  | err (e : TemplateError)
  | indexPanic
deriving DecidableEq

/-- `TemplateInfo` (src/manifest.rs:170). The Rust field `win_prefix` is named
`win_prefix_dir` here. -/
structure TemplateInfo where
  win_prefix_dir : Str
  win_user : Str
  base_dir : Option Str
  root : Option Str
  store_user_id : Option Str
  home_dir : Option Str
  xdg_config : Option Str
  xdg_data : Option Str
  install_dir : Option Str
deriving DecidableEq

/-- Host directory lookups `dirs::data_dir`, `dirs::config_dir`,
`env::home_dir` used as fallbacks by `do_repl`, snapshotted as a record. -/
structure HostDirs where
  data_dir : Option Str
  config_dir : Option Str
  home_dir : Option Str
deriving DecidableEq

/-- The variable names `do_repl` recognises. -/
def knownVars : List Str :=
  ["xdgData".data, "xdgConfig".data, "home".data, "winAppData".data,
   "winLocalAppData".data, "winDocuments".data, "base".data, "root".data,
   "storeUserId".data, "game".data]

/-- `TemplatePath::do_repl` (src/manifest.rs:194). The `<base>` fallback calls
`do_repl` on `"root"` and `"game"`; those two calls are inlined here (they
only read `info.root` and `info.install_dir`). -/
def do_repl (var : Str) (info : TemplateInfo) (host : HostDirs) : Except TemplateError Str :=
  if var = "xdgData".data then
    match info.xdg_data with
    | some p => .ok p
    | none => match host.data_dir with
      | some p => .ok p
      | none => .error (.failedToLocateDir var)
  else if var = "xdgConfig".data then
    match info.xdg_config with
    | some p => .ok p
    | none => match host.config_dir with
      | some p => .ok p
      | none => .error (.failedToLocateDir var)
  else if var = "home".data then
    match info.home_dir with
    | some p => .ok p
    | none => match host.home_dir with
      | some p => .ok p
      | none => .error (.failedToLocateDir var)
  else if var = "winAppData".data then
    .ok (pathJoin (pathJoin (pathJoin (pathJoin info.win_prefix_dir ("users".data))
      info.win_user) ("AppData".data)) ("Roaming".data))
  else if var = "winLocalAppData".data then
    .ok (pathJoin (pathJoin (pathJoin (pathJoin info.win_prefix_dir ("users".data))
      info.win_user) ("AppData".data)) ("Local".data))
  else if var = "winDocuments".data then
    .ok (pathJoin (pathJoin (pathJoin info.win_prefix_dir ("users".data))
      info.win_user) ("Documents".data))
  else if var = "base".data then
    match info.base_dir with
    | some b => .ok b
    | none =>
      match info.root with
      | none => .error (.variableNotAvailable ("<root>".data))
      | some r =>
        match info.install_dir with
        | none => .error (.variableNotAvailable ("<game>".data))
        | some g => .ok (join_good r g)
  else if var = "root".data then
    match info.root with
    | some r => .ok r
    | none => .error (.variableNotAvailable ("<root>".data))
  else if var = "storeUserId".data then
    match info.store_user_id with
    | some s => .ok s
    | none => .error (.variableNotAvailable ("<storeUserId>".data))
  else if var = "game".data then
    match info.install_dir with
    | some g => .ok g
    | none => .error (.variableNotAvailable ("<game>".data))
  else .error (.unknownVariable var)

/-- Index of the first occurrence of `c` in a character list. -/
def charIdx (c : Char) : Str → Option Nat
  | [] => none
  | x :: xs => if x = c then some 0 else (charIdx c xs).map (· + 1)

/-- `self.0[e..].find(c).map(|s| s + e)`: first occurrence of `c` in `s` at a
position `≥ e`, as an absolute position. -/
def findFrom (s : Str) (e : Nat) (c : Char) : Option Nat :=
  (charIdx c (s.drop e)).map (· + e)

/-- The scanning loop of `TemplatePath::apply_substs` (src/manifest.rs:258-269):
from scan position `e`, find the next `<` (done when there is none), find the
next `>` **also starting from `e`** (`NoClosingDelim` when there is none), take
the characters strictly between them as the variable, resolve it, and
continue after the `>`.  When the `>` found precedes the `<`, the Rust slice
`&self.0[start+1..end]` panics (`indexPanic`).  The `fuel` argument makes the
recursion structural; `apply_substs` passes `s.length + 1`, which the
`scanGo_fuel` lemma shows is never exhausted. -/
def scanGo (s : Str) (info : TemplateInfo) (host : HostDirs) :
    Nat → Nat → Except SubstError (List (Nat × Nat × Str))
  | 0, _ => .error .indexPanic
  | fuel + 1, e =>
    match findFrom s e '<' with
    | none => .ok []
    | some start =>
      match findFrom s e '>' with
      | none => .error (.err .noClosingDelim)
      | some e2 =>
        if e2 < start + 1 then .error .indexPanic
        else
          match do_repl ((s.take e2).drop (start + 1)) info host with
          | .error te => .error (.err te)
          | .ok repl =>
            match scanGo s info host fuel (e2 + 1) with
            | .error er => .error er
            | .ok rest => .ok ((start, e2, repl) :: rest)

/-- The rebuild loop of `apply_substs` (src/manifest.rs:271-279): emit the
text before each substitution site verbatim, then the replacement, and finally
the tail after the last site. -/
def rebuild (s : Str) : List (Nat × Nat × Str) → Nat → Str
  | [], prev => s.drop prev
  | (start, e2, repl) :: rest, prev =>
    (s.take start).drop prev ++ repl ++ rebuild s rest (e2 + 1)

/-- `TemplatePath::apply_substs` (src/manifest.rs:257). -/
def apply_substs (p : Str) (info : TemplateInfo) (host : HostDirs) : Except SubstError Str :=
  match scanGo p info host (p.length + 1) 0 with
  | .error e => .error e
  | .ok substs => .ok (rebuild p substs 0)

/-- `true` on `.ok`. -/
def exceptOk {ε α : Type _} : Except ε α → Bool
  | .ok _ => true
  | .error _ => false

/-! ### Well-formed templates, described as chunk lists

A chunk list is the parse of a well-formed template: literal text free of the
delimiter characters, alternating with `<var>` placeholders.  These are used
to state the amended template-engine claims. -/

/-- A well-formed template piece: literal text or one placeholder. -/
inductive Chunk
  | lit (s : Str)
  | var (v : Str)
deriving DecidableEq

/-- The template text of a chunk. -/
def renderChunk : Chunk → Str
  | .lit s => s
  | .var v => '<' :: (v ++ '>' :: [])

/-- The template text of a chunk list. -/
def render (cs : List Chunk) : Str := (cs.map renderChunk).flatten

/-- The resolved text of a chunk (the replacement for a placeholder). -/
def chunkVal (info : TemplateInfo) (host : HostDirs) : Chunk → Str
  | .lit s => s
  | .var v =>
    match do_repl v info host with
    | .ok r => r
    | .error _ => []

/-- The resolved text of a chunk list. -/
def resolveChunks (info : TemplateInfo) (host : HostDirs) (cs : List Chunk) : Str :=
  (cs.map (chunkVal info host)).flatten

/-- A chunk is scannable: literals avoid both delimiter characters, and
placeholder variables avoid `>` and resolve successfully. -/
def chunkOK (info : TemplateInfo) (host : HostDirs) : Chunk → Prop
  | .lit s => '<' ∉ s ∧ '>' ∉ s
  | .var v => '>' ∉ v ∧ exceptOk (do_repl v info host) = true

instance (info : TemplateInfo) (host : HostDirs) (c : Chunk) :
    Decidable (chunkOK info host c) := by
  cases c <;> · unfold chunkOK; infer_instance

/-- The substitution list the scanner produces for a chunk list starting at
position `e`. -/
def substsFor (info : TemplateInfo) (host : HostDirs) : List Chunk → Nat → List (Nat × Nat × Str)
  | [], _ => []
  | .lit s :: rest, e => substsFor info host rest (e + s.length)
  | .var v :: rest, e =>
    (e, e + v.length + 1, chunkVal info host (.var v)) :: substsFor info host rest (e + v.length + 2)

/-! ## Version policy (src/backends/mod.rs) -/

/-- Semantic version; only major/minor/patch are used by the code. -/
structure Version where
  major : Nat
  minor : Nat
  patch : Nat
deriving DecidableEq

/-- `check_version_compat_read` (src/backends/mod.rs:80). -/
def check_version_compat_read (curr prev : Version) : Bool :=
  curr.major == prev.major && (curr.major != 0 || curr.minor == prev.minor)

/-- `check_version_compat_write` (src/backends/mod.rs:84). -/
def check_version_compat_write (curr prev : Version) : Bool :=
  (decide (prev.major ≤ curr.major)) && (curr.major != 0 || decide (prev.minor ≤ curr.minor))

/-- `FileMetaEntry` (src/backends/mod.rs:92). -/
structure FileMetaEntry where
  template : Str
  remote_path : Str
deriving DecidableEq

/-- `FileMetaTable` (src/backends/mod.rs:97). -/
structure FileMetaTable where
  entries : List FileMetaEntry
  oldest_modified_time : Time
deriving DecidableEq

/-- `SyncMetadata` (src/backends/mod.rs:51). -/
structure SyncMetadata where
  last_write_timestamp : Time
  last_write_hostname : Str
  file_table : FileMetaTable
  last_write_cinc_version : Version
deriving DecidableEq

/-- `SyncMetadata::from_sys_info` (src/backends/mod.rs:115); the clock,
hostname and crate version are snapshotted as parameters. -/
def SyncMetadata.from_sys_info (now : Time) (hostname : Str) (ver : Version)
    (file_table : FileMetaTable) : SyncMetadata :=
  ⟨now, hostname, file_table, ver⟩

/-- `SyncMetadata::is_version_read_compatabible` (src/backends/mod.rs:66):
note the call passes the metadata's version as the first (`curr`) argument and
the running crate's version as the second (`prev`). -/
def SyncMetadata.is_version_read_compatabible (m : SyncMetadata) (currCrateVer : Version) : Bool :=
  check_version_compat_read m.last_write_cinc_version currCrateVer

/-- `SyncMetadata::is_version_write_compatabible` (src/backends/mod.rs:75):
note the call passes the metadata's version as the first (`curr`) argument and
the running crate's version as the second (`prev`). -/
def SyncMetadata.is_version_write_compatabible (m : SyncMetadata) (currCrateVer : Version) : Bool :=
  check_version_compat_write m.last_write_cinc_version currCrateVer

/-! ## Sync manager (src/sync.rs) -/

/-- `FileTag` (src/manifest.rs:86). -/
inductive FileTag
  | save
  | config
  | other
deriving DecidableEq

/-- `FileInfo` (src/sync.rs:26). -/
structure FileInfo where
  local_path : Str
  remote_path : Str
  template : Str
  tags : List FileTag
deriving DecidableEq

/-- What the filesystem records about an existing file. -/
structure FsEntry where
  mtime : Time
  content : List Nat
deriving DecidableEq

/-- The local filesystem: a partial map from paths to file data.
`fs::exists` is `(st p).isSome`; `fs::metadata(..).modified()` is the mtime. -/
def FsState := Str → Option FsEntry

/-- `SyncMgr` (src/sync.rs:33). -/
structure SyncMgr where
  files : List FileInfo
  local_info : TemplateInfo
  remote_name : Str

/-- `SyncIssueInfo` (src/ui.rs:6). -/
structure SyncIssueInfo where
  local_time : Time
  remote_time : Time
  remote_name : Str
  remote_last_writer : Str
deriving DecidableEq

/-- Failures of the sync-manager operations. -/
inductive SErr
  | subst (e : SubstError)
  | ioStat (p : Str)
  | archiveMembership (p : Str)
  | backendFailed
deriving DecidableEq

/-- Loop body of `SyncMgr::rhaid_lawrlwytho` (src/sync.rs:231): walk the
file-table entries, localising each template; an entry with no matching file
in `mgr.files`, or whose matching file is strictly older than
`oldest`, answers `true`; otherwise continue, answering `false` at the end. -/
def rhaidGo (mgr : SyncMgr) (st : FsState) (host : HostDirs) (oldest : Time) :
    List FileMetaEntry → Except SErr Bool
  | [] => .ok false
  | e :: rest =>
    match apply_substs e.template mgr.local_info host with
    | .error te => .error (.subst te)
    | .ok file =>
      match mgr.files.find? (fun f => f.local_path == file) with
      | some f =>
        match st f.local_path with
        | none => .error (.ioStat f.local_path)
        | some d =>
          if d.mtime < oldest then .ok true
          else rhaidGo mgr st host oldest rest
      | none => .ok true

/-- `SyncMgr::rhaid_lawrlwytho` (needs-download, src/sync.rs:231), iterating
`metadata.file_table.localise_entries(&self.local_info)`. -/
def rhaid_lawrlwytho (mgr : SyncMgr) (st : FsState) (host : HostDirs)
    (metadata : SyncMetadata) : Except SErr Bool :=
  rhaidGo mgr st host metadata.file_table.oldest_modified_time metadata.file_table.entries

/-- `SyncMgr::get_modified_times` (src/sync.rs:216): stat every file in order,
failing on the first file that cannot be statted. -/
def get_modified_times (st : FsState) : List FileInfo → Except SErr (List Time)
  | [] => .ok []
  | f :: fs =>
    match st f.local_path with
    | none => .error (.ioStat f.local_path)
    | some d =>
      match get_modified_times st fs with
      | .error e => .error e
      | .ok ts => .ok (d.mtime :: ts)

/-- `Iterator::max` accumulator. -/
def maxAcc (a : Time) : List Time → Time
  | [] => a
  | x :: xs => maxAcc (max a x) xs

/-- `Iterator::max`: `none` on an empty list, otherwise the maximum. -/
def listMaxQ : List Time → Option Time
  | [] => none
  | x :: xs => some (maxAcc x xs)

/-- `SyncMgr::get_latest_modified_time` (src/sync.rs:227). -/
def get_latest_modified_time (mgr : SyncMgr) (st : FsState) : Except SErr (Option Time) :=
  match get_modified_times st mgr.files with
  | .error e => .error e
  | .ok ts => .ok (listMaxQ ts)

/-- `SyncMgr::are_local_files_newer` (src/sync.rs:247). -/
def are_local_files_newer (mgr : SyncMgr) (st : FsState) (cloud_time : SyncMetadata) :
    Except SErr (Option SyncIssueInfo) :=
  match get_latest_modified_time mgr st with
  | .error e => .error e
  | .ok none => .ok none
  | .ok (some newest_local) =>
    if cloud_time.last_write_timestamp < newest_local then
      .ok (some ⟨newest_local, cloud_time.last_write_timestamp,
                 mgr.remote_name, cloud_time.last_write_hostname⟩)
    else .ok none

/-- `SyncMgr::build_file_table` (src/sync.rs:344): fold over `files`, keeping
the entries whose local file exists and tracking the oldest mtime, starting
from the current time. -/
def build_file_table (st : FsState) (now : Time) (files : List FileInfo) : FileMetaTable :=
  files.foldl
    (fun acc f =>
      match st f.local_path with
      | none => acc
      | some d =>
        { entries := acc.entries ++ [⟨f.template, f.remote_path⟩],
          oldest_modified_time :=
            if d.mtime < acc.oldest_modified_time then d.mtime
            else acc.oldest_modified_time })
    ⟨[], now⟩

/-- `SyncMgr::tar_files` (src/sync.rs:368): the archive is the list of
`(remote_path, content)` entries of the files that exist locally, in order
(xz compression is content-preserving and is not modelled separately). -/
def tar_files (st : FsState) (files : List FileInfo) : List (Str × List Nat) :=
  files.filterMap (fun f => (st f.local_path).map (fun d => (f.remote_path, d.content)))

/-- A backend write operation, as an observable event. -/
inductive BEvent
  | writeMeta (m : SyncMetadata)
  | writeFile (p : Str) (archive : List (Str × List Nat))
deriving DecidableEq

/-- `ARCHIVE_NAME` (src/sync.rs:22). -/
def ARCHIVE_NAME : Str := "archive.tar.xz".data

/-- `SyncMgr::upload` (src/sync.rs:290): build the file table, write the
sync-metadata side-car first, then build and write the archive.  `bk` is the
backend's success oracle; the returned list is the sequence of backend writes
that were issued, in order, together with the error (if any). -/
def upload (mgr : SyncMgr) (st : FsState) (bk : BEvent → Bool) (now : Time)
    (hostname : Str) (ver : Version) : List BEvent × Option SErr :=
  let table := build_file_table st now mgr.files
  let latest_write := SyncMetadata.from_sys_info now hostname ver table
  let ev1 := BEvent.writeMeta latest_write
  if bk ev1 then
    let archive := tar_files st mgr.files
    let ev2 := BEvent.writeFile ARCHIVE_NAME archive
    ([ev1, ev2], if bk ev2 then none else some .backendFailed)
  else ([ev1], some .backendFailed)

/-- A tar archive entry as seen by `untar_files`. -/
structure TarEntry where
  path : Str
  data : List Nat
deriving DecidableEq

/-- Loop of `SyncMgr::untar_files` (src/sync.rs:306): for each archive entry,
find the file-table record with the same `remote_path` (bailing with
`archiveMembership` when there is none), resolve that record's template
against the local `TemplateInfo`, and unpack.  Returns the performed unpack
writes `(entry path, local path, data)` in order, and the error if the loop
bailed. -/
def untarGo (info : TemplateInfo) (host : HostDirs) (table : FileMetaTable) :
    List TarEntry → List (Str × Str × List Nat) × Option SErr
  | [] => ([], none)
  | ent :: rest =>
    match table.entries.find? (fun m => m.remote_path == ent.path) with
    | none => ([], some (.archiveMembership ent.path))
    | some mfile =>
      match apply_substs mfile.template info host with
      | .error te => ([], some (.subst te))
      | .ok localPath =>
        let r := untarGo info host table rest
        ((ent.path, localPath, ent.data) :: r.1, r.2)

/-- `SyncMgr::untar_files` (src/sync.rs:306). -/
def untar_files (mgr : SyncMgr) (host : HostDirs) (arch : List TarEntry)
    (table : FileMetaTable) : List (Str × Str × List Nat) × Option SErr :=
  untarGo mgr.local_info host table arch

/-- The local path an archive entry with path `p` unpacks to: the resolution
of the template of the file-table record found for `p`. -/
def localFor (info : TemplateInfo) (host : HostDirs) (table : FileMetaTable) (p : Str) : Str :=
  match table.entries.find? (fun m => m.remote_path == p) with
  | none => []
  | some mfile =>
    match apply_substs mfile.template info host with
    | .ok l => l
    | .error _ => []

/-! ## Platform resolver (src/platform.rs, src/manifest.rs) -/

/-- `Os` (src/manifest.rs:95). -/
inductive Os
  | windows
  | linux
  | mac
  | dos
deriving DecidableEq

/-- `Arch` (src/manifest.rs:131). -/
inductive Arch
  | x86_64
  | x86
deriving DecidableEq

/-- `Store` (src/manifest.rs:122). -/
inductive Store
  | steam
  | gog
  | epic
  | other
deriving DecidableEq

/-- `manifest::PlatformInfo` (src/manifest.rs:45). -/
structure PlatformQ where
  store : Option Store
  wine : Bool
deriving DecidableEq

/-- `Os::sat` (src/manifest.rs:103) on a Linux host. -/
def Os.sat (o : Os) (wine : Bool) : Bool :=
  if wine && (o == .windows) then true else o == .linux

/-- `Arch::sat` (src/manifest.rs:138) on a 64-bit host. -/
def Arch.sat (a : Arch) : Bool := a == .x86_64

/-- `LaunchPredicate` (src/manifest.rs:62). -/
structure LaunchPredicate where
  bit : Option Arch
  os : Option Os
  store : Option Store
deriving DecidableEq

/-- `LaunchPredicate::sat` (src/manifest.rs:69). -/
def LaunchPredicate.sat (p : LaunchPredicate) (info : PlatformQ) : Bool :=
  (p.bit.map Arch.sat).getD true
    && (p.os.map (fun o => o.sat info.wine)).getD true
    && (info.store.isNone || (p.store.isNone || info.store == p.store))

/-- `LaunchConfig` (src/manifest.rs:51). -/
structure LaunchConfig where
  preds : List LaunchPredicate
deriving DecidableEq

/-- `LaunchConfig::sat` (src/manifest.rs:56). -/
def LaunchConfig.sat (c : LaunchConfig) (info : PlatformQ) : Bool :=
  c.preds.all (fun p => p.sat info)

/-- `GameManifest` (src/manifest.rs:15), restricted to the `launch` table that
`find_likelist_umu_match` reads; the hash map is modelled as the list of its
entries in iteration order. -/
structure GameManifest where
  launch : List (Str × List LaunchConfig)
deriving DecidableEq

/-- Length of the longest common prefix of two lists (`zip` + `take_while`). -/
def matchPrefixLen : List Str → List Str → Nat
  | a :: as, b :: bs => if a = b then matchPrefixLen as bs + 1 else 0
  | _, _ => 0

/-- The length computed inside `find_likelist_umu_match` (src/platform.rs:80):
common prefix of the reversed component lists, i.e. common suffix length. -/
def commonSuffixLen (tpl exe : Str) : Nat :=
  matchPrefixLen (comps tpl).reverse (comps exe).reverse

/-- The `(game, suffix length)` candidates `find_likelist_umu_match` scans, in
iteration order: for each manifest entry, its launch keys whose configs are
all satisfied with `store = none, wine = true`. -/
def launchCandidates (ms : List (Str × GameManifest)) (exe : Str) :
    List ((Str × GameManifest) × Nat) :=
  ms.flatMap (fun km =>
    (km.2.launch.filter (fun l => l.2.all (fun c => c.sat ⟨none, true⟩))).map
      (fun l => (km, commonSuffixLen l.1 exe)))

/-- The `(max_len, max)` update of the loop in `find_likelist_umu_match`:
strictly longer matches win, so ties keep the earlier candidate. -/
def selStep (acc : Nat × Option (Str × GameManifest)) (c : (Str × GameManifest) × Nat) :
    Nat × Option (Str × GameManifest) :=
  if acc.1 < c.2 then (c.2, some c.1) else acc

/-- `find_likelist_umu_match` (src/platform.rs:63). -/
def find_likelist_umu_match (ms : List (Str × GameManifest)) (exe : Str) :
    Option (Str × GameManifest) :=
  ((launchCandidates ms exe).foldl selStep (0, none)).2

/-- Maximum of a list of naturals (0 on empty). -/
def listMaxNat : List Nat → Nat
  | [] => 0
  | x :: xs => max x (listMaxNat xs)

/-- The best suffix-match length among the candidates. -/
def candMax (ms : List (Str × GameManifest)) (exe : Str) : Nat :=
  listMaxNat ((launchCandidates ms exe).map (fun c => c.2))

/-! ## Fuel invariant for the scanner -/

/-- Enough fuel for `scanGo` on `s` from position `e`: at least one step, and
at least one step per remaining position. -/
def fuelOk (s : Str) (fuel e : Nat) : Prop := 1 ≤ fuel ∧ s.length + 1 ≤ fuel + e

/-! ## Concrete instances used by witnesses and counterexamples -/

/-- Host-directory snapshot with no directories available. -/
def hostNone : HostDirs := ⟨none, none, none⟩

/-- A `TemplateInfo` with no optional field set. -/
def infoNone : TemplateInfo := ⟨[], [], none, none, none, none, none, none, none⟩

/-- A `TemplateInfo` whose `root` value contains a `<` character. -/
def infoRootAngle : TemplateInfo :=
  ⟨[], [], none, some ('x' :: '<' :: 'y' :: []), none, none, none, none, none⟩

/-- A `TemplateInfo` with a plain `root` value. -/
def infoRootPlain : TemplateInfo :=
  ⟨[], [], none, some ("rootdir".data), none, none, none, none, none⟩

/-- Manifest entry with launch key `<base>/bin/game.exe`. -/
def exampleM1 : GameManifest := ⟨[("<base>/bin/game.exe".data, [])]⟩

/-- Manifest entry with launch key `<base>/game.exe`. -/
def exampleM2 : GameManifest := ⟨[("<base>/game.exe".data, [])]⟩

/-- One-file sync manager used by witnesses. -/
def mgrW : SyncMgr :=
  ⟨[⟨"t".data, "r".data, "t".data, [.save]⟩], infoNone, "backend".data⟩

/-- Filesystem holding exactly the file `t` with mtime 5. -/
def stW : FsState := fun p => if p = "t".data then some ⟨5, [1, 2]⟩ else none

/-- Empty filesystem. -/
def stEmpty : FsState := fun _ => none

/-- Metadata whose file table lists `t` (via the constant template `t`) with
oldest mtime 3 and last write at time 10. -/
def metaW : SyncMetadata := ⟨10, "host".data, ⟨[⟨"t".data, "r".data⟩], 3⟩, ⟨0, 2, 1⟩⟩

/-- One-entry archive whose path matches no file-table record. -/
def archW : List TarEntry := [⟨"p".data, [1]⟩]

/-- Empty file table. -/
def tableW : FileMetaTable := ⟨[], 0⟩

/-- The mtimes of the sync manager's files that the filesystem can stat, in
order. -/
def localMtimes (st : FsState) (files : List FileInfo) : List Time :=
  files.filterMap (fun f => (st f.local_path).map (fun d => d.mtime))

/-! # Theorems -/

/-! ## Path lemmas -/

theorem splitSlash_ne_nil (l : Str) : splitSlash l ≠ [] := by
  match l with
  | [] => simp [splitSlash]
  | c :: cs =>
    simp only [splitSlash]
    by_cases h : c = '/'
    · simp [h]
    · simp only [if_neg h]
      cases hs : splitSlash cs <;> simp

theorem splitSlash_append (a b : Str) :
    splitSlash (a ++ '/' :: b) = splitSlash a ++ splitSlash b := by
  induction a with
  | nil => simp [splitSlash]
  | cons c cs ih =>
    simp only [List.cons_append, splitSlash]
    by_cases h : c = '/'
    · simp [h, ih]
    · simp only [if_neg h, List.append_eq]
      rw [ih]
      cases hs : splitSlash cs with
      | nil => exact absurd hs (splitSlash_ne_nil cs)
      | cons s ss => simp

theorem relComps_append (a b : Str) :
    relComps (a ++ '/' :: b) = relComps a ++ relComps b := by
  unfold relComps
  rw [splitSlash_append, List.filter_append]

theorem relComps_dot_abs (f : Str) (hf : isAbsolute f = true) :
    relComps ('.' :: f) = relComps f := by
  match f, hf with
  | c :: t, hf =>
    have hc : c = '/' := by
      simpa [isAbsolute] using hf
    subst hc
    simp [relComps, splitSlash]

theorem isAbsolute_append (a x : Str) (ha : a ≠ []) :
    isAbsolute (a ++ x) = isAbsolute a := by
  match a, ha with
  | c :: cs, _ => simp [isAbsolute]

theorem comps_filename (root f : Str) (hr : root ≠ []) :
    comps (filename root f) = comps root ++ relComps f := by
  by_cases hf : isAbsolute f
  · have habs : isAbsolute ('.' :: f) = false := by
      simp [isAbsolute]
    have : filename root f = root ++ '/' :: '.' :: f := by
      simp [filename, hf, pathJoin, habs, hr]
    rw [this]
    unfold comps
    rw [isAbsolute_append root ('/' :: '.' :: f) hr, relComps_append,
      relComps_dot_abs f hf, List.append_assoc]
  · have hf' : isAbsolute f = false := by simpa using hf
    have : filename root f = root ++ '/' :: f := by
      simp [filename, hf', pathJoin, hr]
    rw [this]
    unfold comps
    rw [isAbsolute_append root ('/' :: f) hr, relComps_append, List.append_assoc]

theorem foldl_normStep_push (g : List Str) (h : ∀ c ∈ g, c ≠ ('.' :: '.' :: [])) :
    ∀ st : List Str, g.foldl normStep st = st ++ g := by
  induction g with
  | nil => intro st; simp
  | cons c cs ih =>
    intro st
    have hc : c ≠ ('.' :: '.' :: []) := h c (by simp)
    have hstep : normStep st c = st ++ [c] := by
      simp [normStep, hc]
    simp only [List.foldl_cons, hstep]
    rw [ih (fun x hx => h x (by simp [hx]))]
    simp

/-- C6: the claim as stated is false: the filesystem backend joins `..`
components verbatim, so the remote path `/../x` resolves outside the per-game
root `/store/test` (to `/store/x`). -/
theorem c6_no_escape_counterexample :
    ¬ liesUnder ("/store/test".data) (filename ("/store/test".data) ("/../x".data)) := by
  decide

/-- C6 (amended): for every path `f` whose components contain no `..`, the
backend-resolved location `filename root f` lies under the backend root:
absolute paths are joined as relative segments (their leading `/` is treated
as `./`), so such paths cannot escape the root.  Paths with `..` components
do escape (see the counterexample). -/
theorem c6_no_escape_amended (root f : Str) (h : ('.' :: '.' :: []) ∉ comps f) :
    liesUnder root (filename root f) := by
  by_cases hr : root = []
  · subst hr
    have hnil : normalize ([] : Str) = [] := by decide
    unfold liesUnder
    rw [hnil]
    exact ⟨normalize (filename [] f), rfl⟩
  · have hcf := comps_filename root f hr
    have h2 : ∀ c ∈ relComps f, c ≠ ('.' :: '.' :: []) := by
      intro c hc heq
      subst heq
      exact h (by unfold comps; exact List.mem_append_right _ hc)
    unfold liesUnder normalize
    rw [hcf, List.foldl_append, foldl_normStep_push (relComps f) h2]
    exact ⟨relComps f, rfl⟩

/-- C6 witness: a host-absolute remote path without `..` components lands
under the root. -/
theorem c6_no_escape_witness :
    ('.' :: '.' :: []) ∉ comps ("/save/a.sav".data) ∧
      liesUnder ("/store/test".data) (filename ("/store/test".data) ("/save/a.sav".data)) :=
  ⟨by decide, c6_no_escape_amended ("/store/test".data) ("/save/a.sav".data) (by decide)⟩

/-! ## Scanner lemmas -/

theorem charIdx_of_not_mem (c : Char) (xs : Str) (h : c ∉ xs) : charIdx c xs = none := by
  induction xs with
  | nil => rfl
  | cons x xs ih =>
    have hx : ¬ (x = c) := fun heq => h (heq ▸ List.mem_cons_self x xs)
    simp only [charIdx, if_neg hx]
    rw [ih (fun hm => h (List.mem_cons_of_mem x hm))]
    rfl

theorem charIdx_of_mem (c : Char) (xs : Str) (h : c ∈ xs) : ∃ j, charIdx c xs = some j := by
  induction xs with
  | nil => simp at h
  | cons x xs ih =>
    by_cases hx : x = c
    · exact ⟨0, by simp [charIdx, hx]⟩
    · have hm : c ∈ xs := by
        rcases List.mem_cons.1 h with h1 | h1
        · exact absurd h1.symm hx
        · exact h1
      obtain ⟨j, hj⟩ := ih hm
      exact ⟨j + 1, by simp [charIdx, hx, hj]⟩

theorem charIdx_append (c : Char) (a b : Str) (h : c ∉ a) :
    charIdx c (a ++ b) = (charIdx c b).map (· + a.length) := by
  induction a with
  | nil => cases hcb : charIdx c b <;> simp [hcb]
  | cons x xs ih =>
    have hx : ¬ (x = c) := fun heq => h (heq ▸ List.mem_cons_self x xs)
    simp only [List.cons_append, charIdx, if_neg hx, List.append_eq]
    rw [ih (fun hm => h (List.mem_cons_of_mem x hm))]
    cases hcb : charIdx c b with
    | none => simp [hcb]
    | some j => simp [hcb]; omega

theorem charIdx_length (c : Char) (xs : Str) (j : Nat) (h : charIdx c xs = some j) :
    j < xs.length := by
  induction xs generalizing j with
  | nil => simp [charIdx] at h
  | cons x xs ih =>
    by_cases hx : x = c
    · simp [charIdx, hx] at h
      simp only [List.length_cons]
      omega
    · simp only [charIdx, if_neg hx] at h
      cases hc : charIdx c xs with
      | none => rw [hc] at h; simp at h
      | some k =>
        rw [hc] at h
        simp at h
        have := ih k hc
        simp only [List.length_cons]
        omega

theorem findFrom_skip (s : Str) (e : Nat) (c : Char) (l t : Str)
    (hc : c ∉ l) (hd : s.drop e = l ++ t) :
    findFrom s e c = findFrom s (e + l.length) c := by
  have hdt : s.drop (e + l.length) = t := by
    rw [← List.drop_drop, hd, List.drop_left]
  unfold findFrom
  rw [hd, hdt, charIdx_append c l t hc]
  cases hct : charIdx c t with
  | none => simp [hct]
  | some j => simp [hct]; omega

theorem scanGo_skip (s : Str) (info : TemplateInfo) (host : HostDirs) (fuel e : Nat)
    (l t : Str) (h1 : '<' ∉ l) (h2 : '>' ∉ l) (hd : s.drop e = l ++ t) :
    scanGo s info host (fuel + 1) e = scanGo s info host (fuel + 1) (e + l.length) := by
  have k1 := findFrom_skip s e '<' l t h1 hd
  have k2 := findFrom_skip s e '>' l t h2 hd
  simp only [scanGo]
  rw [k1, k2]

theorem render_cons (c : Chunk) (cs : List Chunk) :
    render (c :: cs) = renderChunk c ++ render cs := by
  simp [render]

theorem scanGo_render (info : TemplateInfo) (host : HostDirs) (cs : List Chunk) :
    ∀ (s : Str) (e fuel : Nat), (∀ c ∈ cs, chunkOK info host c) →
      s.drop e = render cs → fuelOk s fuel e →
      scanGo s info host fuel e = .ok (substsFor info host cs e) := by
  induction cs with
  | nil =>
    intro s e fuel _ hs hf
    obtain ⟨hf1, hf2⟩ := hf
    match fuel, hf1 with
    | f + 1, _ =>
      have h1 : findFrom s e '<' = none := by
        unfold findFrom
        rw [hs]
        rfl
      simp [scanGo, h1, substsFor]
  | cons c rest ih =>
    intro s e fuel hok hs hf
    obtain ⟨hf1, hf2⟩ := hf
    match c with
    | .lit l =>
      obtain ⟨hl1, hl2⟩ : '<' ∉ l ∧ '>' ∉ l := by
        have := hok _ (List.mem_cons_self _ _)
        simpa [chunkOK] using this
      rw [render_cons] at hs
      simp only [renderChunk] at hs
      match fuel, hf1 with
      | f + 1, _ =>
        rw [scanGo_skip s info host f e l (render rest) hl1 hl2 hs]
        have hs' : s.drop (e + l.length) = render rest := by
          rw [← List.drop_drop, hs, List.drop_left]
        have := ih s (e + l.length) (f + 1)
          (fun x hx => hok x (List.mem_cons_of_mem _ hx)) hs' ⟨by omega, by omega⟩
        rw [this]
        simp [substsFor]
    | .var v =>
      obtain ⟨hv1, hv2⟩ : '>' ∉ v ∧ exceptOk (do_repl v info host) = true := by
        have := hok _ (List.mem_cons_self _ _)
        simpa [chunkOK] using this
      obtain ⟨r, hr⟩ : ∃ r, do_repl v info host = .ok r := by
        cases hdr : do_repl v info host with
        | ok r => exact ⟨r, rfl⟩
        | error te => rw [hdr] at hv2; simp [exceptOk] at hv2
      rw [render_cons] at hs
      simp only [renderChunk, List.cons_append, List.append_assoc, List.cons_append] at hs
      have hs0 : s.drop e = '<' :: (v ++ '>' :: render rest) := by
        simpa using hs
      have hlen : s.length - e = v.length + 2 + (render rest).length := by
        have h1 : (s.drop e).length = s.length - e := List.length_drop e s
        rw [hs0] at h1
        simp at h1
        omega
      have f1 : findFrom s e '<' = some e := by
        unfold findFrom
        rw [hs0]
        simp [charIdx]
      have f2 : findFrom s e '>' = some (e + v.length + 1) := by
        unfold findFrom
        rw [hs0]
        have hstep : charIdx '>' ('<' :: (v ++ '>' :: render rest)) = some (v.length + 1) := by
          have hne : ¬ ('<' = '>') := by decide
          simp only [charIdx, if_neg hne]
          rw [charIdx_append '>' v ('>' :: render rest) hv1]
          simp [charIdx]
        rw [hstep]
        simp
        omega
      have hslice : (s.take (e + v.length + 1)).drop (e + 1) = v := by
        rw [List.drop_take]
        have h1 : s.drop (e + 1) = v ++ '>' :: render rest := by
          have : (s.drop e).drop 1 = s.drop (e + 1) := List.drop_drop 1 e s
          rw [← this, hs0]
          rfl
        rw [h1]
        have h2 : e + v.length + 1 - (e + 1) = v.length := by omega
        rw [h2, List.take_left]
      have hs'' : s.drop (e + v.length + 2) = render rest := by
        have h1 : (s.drop e).drop (v.length + 2) = s.drop (e + (v.length + 2)) :=
          List.drop_drop (v.length + 2) e s
        have h2 : e + (v.length + 2) = e + v.length + 2 := by omega
        rw [h2] at h1
        rw [← h1, hs0]
        show (v ++ '>' :: render rest).drop (v.length + 1) = render rest
        simp
      match fuel, hf1 with
      | f + 1, _ =>
        have hfrec : fuelOk s f (e + v.length + 2) := by
          constructor
          · omega
          · omega
        have hrec := ih s (e + v.length + 2) f
          (fun x hx => hok x (List.mem_cons_of_mem _ hx)) hs'' hfrec
        simp only [scanGo, f1, f2]
        have hif : ¬ (e + v.length + 1 < e + 1) := by omega
        simp only [hif, if_false]
        rw [hslice, hr]
        have harith : e + v.length + 1 + 1 = e + v.length + 2 := by omega
        rw [harith, hrec]
        simp [substsFor, chunkVal, hr]

theorem drop_split (l : Str) (prev q : Nat) (h : prev ≤ q) :
    l.drop prev = (l.take q).drop prev ++ l.drop q := by
  conv_lhs => rw [← List.take_append_drop q l]
  rw [List.drop_append_eq_append_drop]
  by_cases hl : q ≤ l.length
  · have h1 : (l.take q).length = q := by
      rw [List.length_take]
      omega
    rw [h1]
    have h2 : prev - q = 0 := by omega
    rw [h2, List.drop_zero]
  · have h1 : l.drop q = [] := by
      apply List.drop_eq_nil_of_le
      omega
    rw [h1]
    simp

theorem substsFor_start_ge (info : TemplateInfo) (host : HostDirs) :
    ∀ (cs : List Chunk) (e st e2 : Nat) (r : Str),
      (st, e2, r) ∈ substsFor info host cs e → e ≤ st := by
  intro cs
  induction cs with
  | nil => intro e st e2 r h; simp [substsFor] at h
  | cons c rest ih =>
    intro e st e2 r h
    match c with
    | .lit l =>
      simp only [substsFor] at h
      have := ih (e + l.length) st e2 r h
      omega
    | .var v =>
      simp only [substsFor, List.mem_cons] at h
      rcases h with h | h
      · simp at h
        omega
      · have := ih (e + v.length + 2) st e2 r h
        omega

theorem rebuild_shift (s : Str) (substs : List (Nat × Nat × Str)) (prev q : Nat)
    (hpp : prev ≤ q)
    (hstart : ∀ st e2 r, (st, e2, r) ∈ substs → q ≤ st) :
    rebuild s substs prev = (s.take q).drop prev ++ rebuild s substs q := by
  match substs with
  | [] =>
    simp only [rebuild]
    exact drop_split s prev q hpp
  | (st, e2, r) :: rest =>
    simp only [rebuild]
    have h1 : q ≤ st := hstart st e2 r (List.mem_cons_self _ _)
    have key : (s.take st).drop prev = (s.take q).drop prev ++ (s.take st).drop q := by
      have := drop_split (s.take st) prev q hpp
      rwa [List.take_take, min_eq_left h1] at this
    rw [key]
    simp [List.append_assoc]

theorem rebuild_render (info : TemplateInfo) (host : HostDirs) :
    ∀ (cs : List Chunk) (s : Str) (prev : Nat),
      s.drop prev = render cs →
      rebuild s (substsFor info host cs prev) prev = resolveChunks info host cs := by
  intro cs
  induction cs with
  | nil =>
    intro s prev hs
    simp only [substsFor, rebuild, resolveChunks, List.map_nil, List.flatten_nil]
    rw [hs]
    rfl
  | cons c rest ih =>
    intro s prev hs
    match c with
    | .lit l =>
      rw [render_cons] at hs
      simp only [renderChunk] at hs
      simp only [substsFor]
      rw [rebuild_shift s (substsFor info host rest (prev + l.length)) prev (prev + l.length)
        (by omega)
        (fun st e2 r hm => substsFor_start_ge info host rest (prev + l.length) st e2 r hm)]
      have hpre : (s.take (prev + l.length)).drop prev = l := by
        rw [List.drop_take]
        have h2 : prev + l.length - prev = l.length := by omega
        rw [h2, hs, List.take_left]
      have hs' : s.drop (prev + l.length) = render rest := by
        rw [← List.drop_drop, hs, List.drop_left]
      rw [hpre, ih s (prev + l.length) hs']
      simp [resolveChunks, chunkVal]
    | .var v =>
      rw [render_cons] at hs
      simp only [renderChunk, List.cons_append, List.append_assoc] at hs
      have hs0 : s.drop prev = '<' :: (v ++ '>' :: render rest) := by
        simpa using hs
      simp only [substsFor, rebuild]
      have hnil : (s.take prev).drop prev = [] := by
        apply List.drop_eq_nil_of_le
        rw [List.length_take]
        omega
      have hs'' : s.drop (prev + v.length + 2) = render rest := by
        have h1 : (s.drop prev).drop (v.length + 2) = s.drop (prev + (v.length + 2)) :=
          List.drop_drop (v.length + 2) prev s
        have h2 : prev + (v.length + 2) = prev + v.length + 2 := by omega
        rw [h2] at h1
        rw [← h1, hs0]
        show (v ++ '>' :: render rest).drop (v.length + 1) = render rest
        simp
      have harith : prev + v.length + 1 + 1 = prev + v.length + 2 := by omega
      rw [hnil, harith, ih s (prev + v.length + 2) hs'']
      simp [resolveChunks]

theorem apply_substs_render (info : TemplateInfo) (host : HostDirs) (cs : List Chunk)
    (hok : ∀ c ∈ cs, chunkOK info host c) :
    apply_substs (render cs) info host = .ok (resolveChunks info host cs) := by
  unfold apply_substs
  rw [scanGo_render info host cs (render cs) 0 ((render cs).length + 1) hok (by simp)
    ⟨by omega, by omega⟩]
  show Except.ok (rebuild (render cs) (substsFor info host cs 0) 0) =
    Except.ok (resolveChunks info host cs)
  rw [rebuild_render info host cs (render cs) 0 (by simp)]

theorem apply_substs_no_langle (p : Str) (info : TemplateInfo) (host : HostDirs)
    (h : '<' ∉ p) : apply_substs p info host = .ok p := by
  unfold apply_substs
  have h1 : findFrom p 0 '<' = none := by
    unfold findFrom
    rw [List.drop_zero, charIdx_of_not_mem '<' p h]
    rfl
  simp [scanGo, h1, rebuild]

theorem do_repl_unknown (v : Str) (info : TemplateInfo) (host : HostDirs)
    (h : v ∉ knownVars) : do_repl v info host = .error (.unknownVariable v) := by
  simp only [knownVars, List.mem_cons, List.not_mem_nil, or_false, not_or] at h
  obtain ⟨h1, h2, h3, h4, h5, h6, h7, h8, h9, h10⟩ := h
  simp [do_repl, h1, h2, h3, h4, h5, h6, h7, h8, h9, h10]

/-! ## C7: template-engine error behaviour -/

/-- C7: the claim as stated is false.  The template `>a<` contains a `<` with
no closing `>`, but `apply_substs` does not fail with `NoClosingDelim`: the
scanner finds the `>` at position 0 (it searches from the scan position, not
from the `<`), and the slice `self.0[start+1..end]` with `start+1 = 3 > end
= 0` panics. -/
theorem c7_counterexample :
    apply_substs ('>' :: 'a' :: '<' :: []) infoNone hostNone = .error .indexPanic ∧
      apply_substs ('>' :: 'a' :: '<' :: []) infoNone hostNone ≠
        .error (.err .noClosingDelim) := by
  decide

/-- C7 (amended): for every template containing no `<`, resolution returns the
input unchanged (text outside delimiters is emitted verbatim); a template
containing a `<` but no `>` anywhere fails with `NoClosingDelim`; and a
template consisting of delimiter-free literal text followed by `<v>` (with `v`
not a recognised variable, `>`-free) fails with `UnknownVariable v` — an
error carries no output, so no partial output is produced.  The restrictions
relative to the original claim are forced by the counterexample: a `>` before
a `<` makes the scanner panic instead. -/
theorem c7_template_errors_amended (info : TemplateInfo) (host : HostDirs) :
    (∀ p : Str, '<' ∉ p → apply_substs p info host = .ok p) ∧
      (∀ p : Str, '<' ∈ p → '>' ∉ p →
        apply_substs p info host = .error (.err .noClosingDelim)) ∧
      (∀ l v rest : Str, '<' ∉ l → '>' ∉ l → '>' ∉ v → v ∉ knownVars →
        apply_substs (l ++ '<' :: (v ++ '>' :: rest)) info host =
          .error (.err (.unknownVariable v))) := by
  refine ⟨fun p h => apply_substs_no_langle p info host h, fun p h1 h2 => ?_, ?_⟩
  · unfold apply_substs
    obtain ⟨j, hj⟩ := charIdx_of_mem '<' p h1
    have f1 : findFrom p 0 '<' = some j := by
      unfold findFrom
      rw [List.drop_zero, hj]
      simp
    have f2 : findFrom p 0 '>' = none := by
      unfold findFrom
      rw [List.drop_zero, charIdx_of_not_mem '>' p h2]
      rfl
    simp [scanGo, f1, f2]
  · intro l v rest hl1 hl2 hv hk
    unfold apply_substs
    set s : Str := l ++ '<' :: (v ++ '>' :: rest) with hsdef
    have hd0 : s.drop 0 = l ++ ('<' :: (v ++ '>' :: rest)) := by
      rw [List.drop_zero]
    have hsk := scanGo_skip s info host s.length 0 l ('<' :: (v ++ '>' :: rest)) hl1 hl2 hd0
    have hdl : s.drop (0 + l.length) = '<' :: (v ++ '>' :: rest) := by
      rw [← List.drop_drop, hd0, List.drop_left]
    have f1 : findFrom s (0 + l.length) '<' = some (0 + l.length) := by
      unfold findFrom
      rw [hdl]
      simp [charIdx]
    have f2 : findFrom s (0 + l.length) '>' = some (0 + l.length + v.length + 1) := by
      unfold findFrom
      rw [hdl]
      have hstep : charIdx '>' ('<' :: (v ++ '>' :: rest)) = some (v.length + 1) := by
        have hne : ¬ ('<' = '>') := by decide
        simp only [charIdx, if_neg hne]
        rw [charIdx_append '>' v ('>' :: rest) hv]
        simp [charIdx]
      rw [hstep]
      simp
      omega
    have hslice : (s.take (0 + l.length + v.length + 1)).drop (0 + l.length + 1) = v := by
      rw [List.drop_take]
      have h1 : s.drop (0 + l.length + 1) = v ++ '>' :: rest := by
        have hdd : (s.drop (0 + l.length)).drop 1 = s.drop (0 + l.length + 1) :=
          List.drop_drop 1 (0 + l.length) s
        rw [← hdd, hdl]
        rfl
      rw [h1]
      have h2 : 0 + l.length + v.length + 1 - (0 + l.length + 1) = v.length := by omega
      rw [h2, List.take_left]
    have hif : ¬ (0 + l.length + v.length + 1 < 0 + l.length + 1) := by omega
    rw [show s.length + 1 = s.length + 1 from rfl, hsk]
    simp only [scanGo, f1, f2, hif, if_false]
    rw [hslice, do_repl_unknown v info host hk]

/-- C7 witness: instantiating the amended theorem, the unknown variable
`bogus` makes resolution fail with `UnknownVariable` and no output. -/
theorem c7_witness :
    apply_substs (("save/".data) ++ '<' :: (("bogus".data) ++ '>' :: ("/x".data)))
      infoNone hostNone = .error (.err (.unknownVariable ("bogus".data))) :=
  (c7_template_errors_amended infoNone hostNone).2.2 ("save/".data) ("bogus".data) ("/x".data)
    (by decide) (by decide) (by decide) (by decide)

/-! ## C8: determinism and idempotence of resolution -/

/-- C8: the claim as stated is false.  With `root` set to the value `x<y`
(all variables referenced by `<root>` are set), resolution succeeds and
returns `x<y`, but resolving that result again fails with `NoClosingDelim`,
so resolving twice is not the same as resolving once. -/
theorem c8_counterexample :
    apply_substs (('<' :: ("root".data) ++ '>' :: [])) infoRootAngle hostNone =
        .ok ('x' :: '<' :: 'y' :: []) ∧
      apply_substs ('x' :: '<' :: 'y' :: []) infoRootAngle hostNone =
        .error (.err .noClosingDelim) := by
  decide

/-- C8 (amended): for every well-formed template — an alternation of
delimiter-free literals and `<var>` placeholders, each placeholder resolving
successfully — resolution succeeds; it is a pure function of the template and
the `TemplateInfo` (plus the host-directory snapshot), hence deterministic;
and when the substituted values contain no `<` (the restriction the
counterexample forces), resolving the resolved string again returns it
unchanged. -/
theorem c8_idempotent_amended (info : TemplateInfo) (host : HostDirs) (cs : List Chunk)
    (hok : ∀ c ∈ cs, chunkOK info host c)
    (hv : ∀ c ∈ cs, '<' ∉ chunkVal info host c) :
    apply_substs (render cs) info host = .ok (resolveChunks info host cs) ∧
      apply_substs (resolveChunks info host cs) info host =
        .ok (resolveChunks info host cs) := by
  refine ⟨apply_substs_render info host cs hok, ?_⟩
  apply apply_substs_no_langle
  intro hm
  rw [resolveChunks, List.mem_flatten] at hm
  obtain ⟨l, hl, hml⟩ := hm
  rw [List.mem_map] at hl
  obtain ⟨c, hc, rfl⟩ := hl
  exact hv c hc hml

/-- C8 witness: the template `<root>/sav` with `root = rootdir` resolves to
`rootdir/sav`, and resolving again returns the same string. -/
theorem c8_witness :
    apply_substs (render [Chunk.var ("root".data), Chunk.lit ("/sav".data)])
        infoRootPlain hostNone =
      .ok (resolveChunks infoRootPlain hostNone
        [Chunk.var ("root".data), Chunk.lit ("/sav".data)]) ∧
      apply_substs (resolveChunks infoRootPlain hostNone
          [Chunk.var ("root".data), Chunk.lit ("/sav".data)]) infoRootPlain hostNone =
        .ok (resolveChunks infoRootPlain hostNone
          [Chunk.var ("root".data), Chunk.lit ("/sav".data)]) :=
  c8_idempotent_amended infoRootPlain hostNone
    [Chunk.var ("root".data), Chunk.lit ("/sav".data)] (by decide) (by decide)

/-! ## C1: version write-compatibility -/

/-- C1: `is_version_write_compatabible` passes the metadata's version as
`curr` and the running client's version as `prev`, the reverse of the claimed
(and documented) roles.  Evaluating the code: metadata at version 2.0.0 with
the client at 1.3.0 is accepted for writing (the claim demands refusal), and
metadata at 0.2.2 with the client at 0.3.0 is refused (the function's own doc
comment demands acceptance). -/
theorem c1_write_compat_swapped :
    (SyncMetadata.is_version_write_compatabible ⟨0, [], ⟨[], 0⟩, ⟨2, 0, 0⟩⟩ ⟨1, 3, 0⟩ = true) ∧
      (SyncMetadata.is_version_write_compatabible ⟨0, [], ⟨[], 0⟩, ⟨0, 2, 2⟩⟩ ⟨0, 3, 0⟩ = false) := by
  decide

/-! ## C2: need-to-download -/

theorem exceptOk_exists {ε α : Type _} (x : Except ε α) (h : exceptOk x = true) :
    ∃ a, x = .ok a := by
  cases x with
  | ok a => exact ⟨a, rfl⟩
  | error e => simp [exceptOk] at h

theorem rhaidGo_spec (mgr : SyncMgr) (st : FsState) (host : HostDirs) (oldest : Time) :
    ∀ entries : List FileMetaEntry,
      (∀ e ∈ entries, exceptOk (apply_substs e.template mgr.local_info host) = true) →
      (∀ f ∈ mgr.files, (st f.local_path).isSome = true) →
      ∃ b, rhaidGo mgr st host oldest entries = .ok b ∧
        (b = true ↔ ∃ e ∈ entries, ∃ p, apply_substs e.template mgr.local_info host = .ok p ∧
          ((∀ f ∈ mgr.files, f.local_path ≠ p) ∨
           (∃ f ∈ mgr.files, f.local_path = p ∧ ∃ d, st f.local_path = some d ∧
             d.mtime < oldest))) := by
  intro entries
  induction entries with
  | nil =>
    intro _ _
    exact ⟨false, rfl, by simp⟩
  | cons e rest ih =>
    intro h1 h2
    obtain ⟨p, hp⟩ := exceptOk_exists _ (h1 e (List.mem_cons_self _ _))
    cases hfind : mgr.files.find? (fun f => f.local_path == p) with
    | none =>
      refine ⟨true, ?_, ?_⟩
      · simp only [rhaidGo, hp, hfind]
      · have hno : ∀ f ∈ mgr.files, f.local_path ≠ p := by
          intro f hf
          have := List.find?_eq_none.1 hfind f hf
          simpa using this
        simp only [true_iff]
        exact ⟨e, List.mem_cons_self _ _, p, hp, Or.inl hno⟩
    | some f =>
      have hf_mem : f ∈ mgr.files := List.mem_of_find?_eq_some hfind
      have hf_eq : f.local_path = p := by
        have := List.find?_some hfind
        simpa using this
      obtain ⟨d, hd⟩ : ∃ d, st f.local_path = some d := by
        have := h2 f hf_mem
        exact Option.isSome_iff_exists.1 this
      by_cases hm : d.mtime < oldest
      · refine ⟨true, ?_, ?_⟩
        · simp only [rhaidGo, hp, hfind, hd, if_pos hm]
        · simp only [true_iff]
          exact ⟨e, List.mem_cons_self _ _, p, hp, Or.inr ⟨f, hf_mem, hf_eq, d, hd, hm⟩⟩
      · obtain ⟨b, hb, hiff⟩ := ih (fun x hx => h1 x (List.mem_cons_of_mem _ hx)) h2
        refine ⟨b, ?_, ?_⟩
        · simp only [rhaidGo, hp, hfind, hd, if_neg hm]
          exact hb
        · rw [hiff]
          constructor
          · rintro ⟨e', he', rest'⟩
            exact ⟨e', List.mem_cons_of_mem _ he', rest'⟩
          · rintro ⟨e', he', p', hp', hcase⟩
            rcases List.mem_cons.1 he' with rfl | he'tail
            · rw [hp] at hp'
              injection hp' with hpp
              subst hpp
              rcases hcase with hnone | ⟨f', hf', hfp', d', hd', hm'⟩
              · exact absurd hf_eq (hnone f hf_mem)
              · rw [hfp', ← hf_eq] at hd'
                rw [hd] at hd'
                injection hd' with hdd
                subst hdd
                exact absurd hm' hm
            · exact ⟨e', he'tail, p', hp', hcase⟩

/-- C2: `rhaid_lawrlwytho` (needs-download) returns `true` iff some file-table
entry localises to a path with no counterpart in the sync manager's `files`
list, or the counterpart's mtime is strictly earlier than the table's
`oldest_modified_time`; equivalently it returns `false` iff every entry
resolves to a tracked file at least as new as `oldest_modified_time`.
Hypotheses: every entry's template resolves, and every tracked file can be
statted. -/
theorem c2_needs_download (mgr : SyncMgr) (st : FsState) (host : HostDirs)
    (meta : SyncMetadata)
    (h1 : ∀ e ∈ meta.file_table.entries,
      exceptOk (apply_substs e.template mgr.local_info host) = true)
    (h2 : ∀ f ∈ mgr.files, (st f.local_path).isSome = true) :
    ∃ b, rhaid_lawrlwytho mgr st host meta = .ok b ∧
      (b = true ↔ ∃ e ∈ meta.file_table.entries,
        ∃ p, apply_substs e.template mgr.local_info host = .ok p ∧
          ((∀ f ∈ mgr.files, f.local_path ≠ p) ∨
           (∃ f ∈ mgr.files, f.local_path = p ∧ ∃ d, st f.local_path = some d ∧
             d.mtime < meta.file_table.oldest_modified_time))) :=
  rhaidGo_spec mgr st host meta.file_table.oldest_modified_time
    meta.file_table.entries h1 h2

/-- C2 witness: with one tracked file `t` (mtime 5) and a file table listing
the constant template `t` with oldest mtime 3, needs-download is `false`
(the iff instantiates with the matching counterpart). -/
theorem c2_needs_download_witness :
    ∃ b, rhaid_lawrlwytho mgrW stW hostNone metaW = .ok b ∧
      (b = true ↔ ∃ e ∈ metaW.file_table.entries,
        ∃ p, apply_substs e.template mgrW.local_info hostNone = .ok p ∧
          ((∀ f ∈ mgrW.files, f.local_path ≠ p) ∨
           (∃ f ∈ mgrW.files, f.local_path = p ∧ ∃ d, stW f.local_path = some d ∧
             d.mtime < metaW.file_table.oldest_modified_time))) :=
  c2_needs_download mgrW stW hostNone metaW (by decide) (by decide)

/-! ## C3: conflict detection -/

theorem get_modified_times_ok (st : FsState) :
    ∀ files : List FileInfo, (∀ f ∈ files, (st f.local_path).isSome = true) →
      get_modified_times st files = .ok (localMtimes st files) := by
  intro files
  induction files with
  | nil => intro _; rfl
  | cons f fs ih =>
    intro h
    obtain ⟨d, hd⟩ : ∃ d, st f.local_path = some d :=
      Option.isSome_iff_exists.1 (h f (List.mem_cons_self _ _))
    simp only [get_modified_times, hd]
    rw [ih (fun x hx => h x (List.mem_cons_of_mem _ hx))]
    simp [localMtimes, hd]

theorem maxAcc_spec (l : List Time) :
    ∀ a : Time, (maxAcc a l = a ∨ maxAcc a l ∈ l) ∧ a ≤ maxAcc a l ∧
      ∀ u ∈ l, u ≤ maxAcc a l := by
  induction l with
  | nil => intro a; exact ⟨Or.inl rfl, le_refl a, by simp⟩
  | cons x xs ih =>
    intro a
    obtain ⟨hmem, hle, hub⟩ := ih (max a x)
    have hdef : maxAcc a (x :: xs) = maxAcc (max a x) xs := rfl
    refine ⟨?_, ?_, ?_⟩
    · rcases hmem with h | h
      · rcases max_choice a x with hc | hc
        · exact Or.inl (by rw [hdef, h, hc])
        · refine Or.inr ?_
          rw [hdef, h, hc]
          exact List.mem_cons_self x xs
      · exact Or.inr (List.mem_cons_of_mem x (hdef ▸ h))
    · rw [hdef]
      exact le_trans (le_max_left a x) hle
    · intro u hu
      rcases List.mem_cons.1 hu with rfl | hu
      · rw [hdef]
        exact le_trans (le_max_right a u) hle
      · rw [hdef]
        exact hub u hu

theorem listMaxQ_spec (l : List Time) (t : Time) (h : listMaxQ l = some t) :
    t ∈ l ∧ ∀ u ∈ l, u ≤ t := by
  match l, h with
  | x :: xs, h =>
    have hdef : listMaxQ (x :: xs) = some (maxAcc x xs) := rfl
    rw [hdef] at h
    injection h with h
    obtain ⟨hmem, hle, hub⟩ := maxAcc_spec xs x
    subst h
    constructor
    · rcases hmem with h | h
      · rw [h]; exact List.mem_cons_self x xs
      · exact List.mem_cons_of_mem x h
    · intro u hu
      rcases List.mem_cons.1 hu with rfl | hu
      · exact hle
      · exact hub u hu

/-- C3: `are_local_files_newer` returns `Some` iff the maximum mtime over the
sync manager's files exists (the list is non-empty) and is strictly greater
than `metadata.last_write_timestamp`; the returned `SyncIssueInfo` carries
that maximal local time, the metadata's timestamp, the backend name, and the
metadata's hostname.  Hypothesis: every tracked file can be statted. -/
theorem c3_conflict_detection (mgr : SyncMgr) (st : FsState) (meta : SyncMetadata)
    (h : ∀ f ∈ mgr.files, (st f.local_path).isSome = true) :
    ∃ r, are_local_files_newer mgr st meta = .ok r ∧
      ((∃ i, r = some i) ↔
        (∃ t, (t ∈ localMtimes st mgr.files ∧ ∀ u ∈ localMtimes st mgr.files, u ≤ t) ∧
          meta.last_write_timestamp < t)) ∧
      (∀ i, r = some i →
        (i.local_time ∈ localMtimes st mgr.files ∧
          ∀ u ∈ localMtimes st mgr.files, u ≤ i.local_time) ∧
        meta.last_write_timestamp < i.local_time ∧
        i.remote_time = meta.last_write_timestamp ∧
        i.remote_name = mgr.remote_name ∧
        i.remote_last_writer = meta.last_write_hostname) := by
  have hmt := get_modified_times_ok st mgr.files h
  cases hmax : listMaxQ (localMtimes st mgr.files) with
  | none =>
    refine ⟨none, ?_, ?_, ?_⟩
    · simp only [are_local_files_newer, get_latest_modified_time, hmt, hmax]
    · constructor
      · rintro ⟨i, hi⟩
        simp at hi
      · rintro ⟨t, ⟨htm, _⟩, _⟩
        match hl : localMtimes st mgr.files, hmax with
        | [], _ =>
          rw [hl] at htm
          simp at htm
    · intro i hi
      simp at hi
  | some t =>
    obtain ⟨htm, hub⟩ := listMaxQ_spec _ t hmax
    by_cases hlt : meta.last_write_timestamp < t
    · refine ⟨some ⟨t, meta.last_write_timestamp, mgr.remote_name,
        meta.last_write_hostname⟩, ?_, ?_, ?_⟩
      · simp only [are_local_files_newer, get_latest_modified_time, hmt, hmax, if_pos hlt]
      · constructor
        · intro _
          exact ⟨t, ⟨htm, hub⟩, hlt⟩
        · intro _
          exact ⟨_, rfl⟩
      · intro i hi
        injection hi with hi
        subst hi
        exact ⟨⟨htm, hub⟩, hlt, rfl, rfl, rfl⟩
    · refine ⟨none, ?_, ?_, ?_⟩
      · simp only [are_local_files_newer, get_latest_modified_time, hmt, hmax, if_neg hlt]
      · constructor
        · rintro ⟨i, hi⟩
          simp at hi
        · rintro ⟨t', ⟨htm', _⟩, hlt'⟩
          exact absurd (lt_of_lt_of_le hlt' (hub t' htm')) hlt
      · intro i hi
        simp at hi

/-- C3 witness: with one file of mtime 5 and remote written at time 2, a
conflict is reported. -/
theorem c3_conflict_detection_witness :
    ∃ r, are_local_files_newer mgrW stW ⟨2, "host".data, ⟨[], 3⟩, ⟨0, 2, 1⟩⟩ = .ok r ∧
      ((∃ i, r = some i) ↔
        (∃ t, (t ∈ localMtimes stW mgrW.files ∧ ∀ u ∈ localMtimes stW mgrW.files, u ≤ t) ∧
          (2 : Time) < t)) ∧
      (∀ i, r = some i →
        (i.local_time ∈ localMtimes stW mgrW.files ∧
          ∀ u ∈ localMtimes stW mgrW.files, u ≤ i.local_time) ∧
        (2 : Time) < i.local_time ∧
        i.remote_time = 2 ∧
        i.remote_name = mgrW.remote_name ∧
        i.remote_last_writer = "host".data) :=
  c3_conflict_detection mgrW stW ⟨2, "host".data, ⟨[], 3⟩, ⟨0, 2, 1⟩⟩ (by decide)

/-! ## C4: metadata-first upload ordering -/

/-- C4: in every execution of `upload`, any archive write in the issued
backend-write sequence is strictly preceded by the metadata write: the
archive object is never written before the sync-metadata side-car. -/
theorem c4_metadata_first (mgr : SyncMgr) (st : FsState) (bk : BEvent → Bool)
    (now : Time) (hostname : Str) (ver : Version) (i : Nat) (p : Str)
    (a : List (Str × List Nat))
    (h : (upload mgr st bk now hostname ver).1.get? i = some (.writeFile p a)) :
    ∃ j, j < i ∧ ∃ m, (upload mgr st bk now hostname ver).1.get? j =
      some (.writeMeta m) := by
  cases hbk : bk (BEvent.writeMeta (SyncMetadata.from_sys_info now hostname ver
      (build_file_table st now mgr.files))) with
  | true =>
    simp only [upload, hbk, if_true] at h ⊢
    match i, h with
    | 0, h => simp at h
    | 1, h => exact ⟨0, by omega, _, rfl⟩
    | n + 2, h => simp at h
  | false =>
    simp only [upload, hbk, if_false] at h
    match i, h with
    | 0, h => simp at h
    | n + 1, h => simp at h

/-- C4 witness: with an always-succeeding backend and no files, the archive
write sits at index 1 of the trace and the metadata write precedes it. -/
theorem c4_metadata_first_witness :
    ∃ j, j < 1 ∧ ∃ m,
      (upload ⟨[], infoNone, "backend".data⟩ stEmpty (fun _ => true) 0 ("host".data)
        ⟨0, 2, 1⟩).1.get? j = some (.writeMeta m) :=
  c4_metadata_first ⟨[], infoNone, "backend".data⟩ stEmpty (fun _ => true) 0
    ("host".data) ⟨0, 2, 1⟩ 1 ARCHIVE_NAME [] (by decide)

/-! ## C10: upload never skips the remote write -/

theorem build_file_table_all_missing (st : FsState) (now : Time) :
    ∀ files : List FileInfo, (∀ f ∈ files, st f.local_path = none) →
      build_file_table st now files = ⟨[], now⟩ := by
  have hgen : ∀ (files : List FileInfo) (acc : FileMetaTable),
      (∀ f ∈ files, st f.local_path = none) →
      files.foldl
        (fun acc f =>
          match st f.local_path with
          | none => acc
          | some d =>
            { entries := acc.entries ++ [⟨f.template, f.remote_path⟩],
              oldest_modified_time :=
                if d.mtime < acc.oldest_modified_time then d.mtime
                else acc.oldest_modified_time })
        acc = acc := by
    intro files
    induction files with
    | nil => intro acc _; rfl
    | cons f fs ih =>
      intro acc h
      have hf : st f.local_path = none := h f (List.mem_cons_self _ _)
      simp only [List.foldl_cons, hf]
      exact ih acc (fun x hx => h x (List.mem_cons_of_mem _ hx))
  intro files h
  exact hgen files ⟨[], now⟩ h

theorem tar_files_all_missing (st : FsState) (files : List FileInfo)
    (h : ∀ f ∈ files, st f.local_path = none) :
    tar_files st files = [] := by
  unfold tar_files
  rw [List.filterMap_eq_nil_iff]
  intro f hf
  rw [h f hf]
  rfl

/-- C10: even when no tracked file exists locally (including the empty list),
`upload` still issues both backend writes: a metadata side-car whose file
table has an empty entry list and `oldest_modified_time` equal to the current
time, followed by an archive built from zero files; whatever the remote held
before is overwritten.  Hypotheses: no tracked file exists; the backend
accepts the writes. -/
theorem c10_upload_never_skips (mgr : SyncMgr) (st : FsState) (bk : BEvent → Bool)
    (now : Time) (hostname : Str) (ver : Version)
    (hnone : ∀ f ∈ mgr.files, st f.local_path = none)
    (hbk : ∀ ev, bk ev = true) :
    upload mgr st bk now hostname ver =
      ([.writeMeta (SyncMetadata.from_sys_info now hostname ver ⟨[], now⟩),
        .writeFile ARCHIVE_NAME []], none) := by
  have hbft := build_file_table_all_missing st now mgr.files hnone
  have htar := tar_files_all_missing st mgr.files hnone
  simp only [upload, hbft, htar, hbk, if_true]

/-- C10 witness: a sync manager with one tracked (but locally absent) file
uploads an empty file table and an empty archive. -/
theorem c10_upload_never_skips_witness :
    upload mgrW stEmpty (fun _ => true) 7 ("host".data) ⟨0, 2, 1⟩ =
      ([.writeMeta (SyncMetadata.from_sys_info 7 ("host".data) ⟨0, 2, 1⟩ ⟨[], 7⟩),
        .writeFile ARCHIVE_NAME []], none) :=
  c10_upload_never_skips mgrW stEmpty (fun _ => true) 7 ("host".data) ⟨0, 2, 1⟩
    (by decide) (fun _ => rfl)

/-! ## C5: archive membership on unpack -/

theorem untarGo_unmatched (info : TemplateInfo) (host : HostDirs) (table : FileMetaTable) :
    ∀ (arch : List TarEntry) (ent : TarEntry), ent ∈ arch →
      table.entries.find? (fun m => m.remote_path == ent.path) = none →
      (untarGo info host table arch).2 ≠ none ∧
        ∀ w ∈ (untarGo info host table arch).1, w.1 ≠ ent.path := by
  intro arch
  induction arch with
  | nil => intro ent h; simp at h
  | cons x rest ih =>
    intro ent hment hfent
    rcases List.mem_cons.1 hment with rfl | hmtail
    · simp only [untarGo, hfent]
      exact ⟨by simp, by simp⟩
    · cases hfx : table.entries.find? (fun m => m.remote_path == x.path) with
      | none =>
        simp only [untarGo, hfx]
        exact ⟨by simp, by simp⟩
      | some m =>
        cases happ : apply_substs m.template info host with
        | error te =>
          simp only [untarGo, hfx, happ]
          exact ⟨by simp, by simp⟩
        | ok lp =>
          obtain ⟨htail2, htail1⟩ := ih ent hmtail hfent
          simp only [untarGo, hfx, happ]
          refine ⟨htail2, ?_⟩
          intro w hw
          rcases List.mem_cons.1 hw with rfl | hwtail
          · show x.path ≠ ent.path
            intro heq
            rw [heq, hfent] at hfx
            exact Option.noConfusion hfx
          · exact htail1 w hwtail

theorem untarGo_all_matched (info : TemplateInfo) (host : HostDirs) (table : FileMetaTable) :
    ∀ arch : List TarEntry,
      (∀ ent ∈ arch, ∃ m,
        table.entries.find? (fun m' => m'.remote_path == ent.path) = some m ∧
        exceptOk (apply_substs m.template info host) = true) →
      untarGo info host table arch =
        (arch.map (fun ent => (ent.path, localFor info host table ent.path, ent.data)),
         none) := by
  intro arch
  induction arch with
  | nil => intro _; rfl
  | cons x rest ih =>
    intro h
    obtain ⟨m, hfm, hok⟩ := h x (List.mem_cons_self _ _)
    obtain ⟨lp, hlp⟩ := exceptOk_exists _ hok
    have hloc : localFor info host table x.path = lp := by
      simp only [localFor, hfm, hlp]
    simp only [untarGo, hfm, hlp]
    rw [ih (fun e he => h e (List.mem_cons_of_mem _ he))]
    simp [hloc]

/-- C5: during unpack, (a) a tar entry whose path matches no file-table
record makes `untar_files` fail with the archive-membership error, and no
write for that entry's path is ever performed; (b) when every entry has a
matching record whose template resolves, unpacking succeeds and writes each
entry to the path obtained by resolving that record's template against the
local `TemplateInfo`. -/
theorem c5_archive_membership (mgr : SyncMgr) (host : HostDirs)
    (arch : List TarEntry) (table : FileMetaTable) :
    (∀ ent ∈ arch,
      table.entries.find? (fun m => m.remote_path == ent.path) = none →
        (untar_files mgr host arch table).2 ≠ none ∧
        ∀ w ∈ (untar_files mgr host arch table).1, w.1 ≠ ent.path) ∧
    ((∀ ent ∈ arch, ∃ m,
        table.entries.find? (fun m' => m'.remote_path == ent.path) = some m ∧
        exceptOk (apply_substs m.template mgr.local_info host) = true) →
      (untar_files mgr host arch table).2 = none ∧
      (untar_files mgr host arch table).1 =
        arch.map (fun ent =>
          (ent.path, localFor mgr.local_info host table ent.path, ent.data))) := by
  constructor
  · intro ent hm hf
    exact untarGo_unmatched mgr.local_info host table arch ent hm hf
  · intro hall
    unfold untar_files
    rw [untarGo_all_matched mgr.local_info host table arch hall]
    exact ⟨rfl, rfl⟩

/-- C5 witness: an archive entry `p` absent from the (empty) file table makes
unpacking fail, and no write for `p` happens. -/
theorem c5_archive_membership_witness :
    (untar_files mgrW hostNone archW tableW).2 ≠ none ∧
      ∀ w ∈ (untar_files mgrW hostNone archW tableW).1, w.1 ≠ "p".data :=
  (c5_archive_membership mgrW hostNone archW tableW).1 ⟨"p".data, [1]⟩
    (by decide) (by decide)

/-! ## C9: longest-suffix manifest match -/

theorem selFold_spec :
    ∀ (l : List ((Str × GameManifest) × Nat)) (n : Nat) (r : Option (Str × GameManifest)),
      l.foldl selStep (n, r) =
        (max n (listMaxNat (l.map (fun c => c.2))),
         if n < listMaxNat (l.map (fun c => c.2))
         then (l.find? (fun c => c.2 == listMaxNat (l.map (fun c => c.2)))).map
           (fun c => c.1)
         else r) := by
  intro l
  induction l with
  | nil =>
    intro n r
    simp [listMaxNat]
  | cons c l ih =>
    intro n r
    simp only [List.foldl_cons, List.map_cons, listMaxNat]
    by_cases hn : n < c.2
    · have hsel : selStep (n, r) c = (c.2, some c.1) := by
        simp [selStep, hn]
      rw [hsel, ih]
      by_cases hM : c.2 < listMaxNat (l.map (fun c => c.2))
      · have h1 : max c.2 (listMaxNat (l.map (fun c => c.2))) =
            listMaxNat (l.map (fun c => c.2)) := max_eq_right (le_of_lt hM)
        have h2 : max n (max c.2 (listMaxNat (l.map (fun c => c.2)))) =
            max c.2 (listMaxNat (l.map (fun c => c.2))) :=
          max_eq_right (le_of_lt (lt_of_lt_of_le hn (le_max_left _ _)))
        have hfind : (c.2 == listMaxNat (l.map (fun c => c.2))) = false := by
          simp
          omega
        rw [h2, h1]
        have hcond : n < listMaxNat (l.map (fun c => c.2)) := lt_trans hn hM
        simp only [if_pos hM, if_pos hcond, List.find?_cons, hfind]
      · have h1 : max c.2 (listMaxNat (l.map (fun c => c.2))) = c.2 :=
          max_eq_left (by omega)
        have h2 : max n (max c.2 (listMaxNat (l.map (fun c => c.2)))) =
            max c.2 (listMaxNat (l.map (fun c => c.2))) := by
          rw [h1]
          exact max_eq_right (le_of_lt hn)
        have hfind : (c.2 == max c.2 (listMaxNat (l.map (fun c => c.2)))) = true := by
          rw [h1]
          simp
        have hcond : n < max c.2 (listMaxNat (l.map (fun c => c.2))) := by
          rw [h1]
          exact hn
        rw [h2]
        simp only [if_neg hM, if_pos hcond, List.find?_cons, hfind]
        simp
    · have hsel : selStep (n, r) c = (n, r) := by
        simp [selStep, hn]
      rw [hsel, ih]
      have hcn : c.2 ≤ n := by omega
      have h2 : max n (max c.2 (listMaxNat (l.map (fun c => c.2)))) =
          max n (listMaxNat (l.map (fun c => c.2))) := by
        rw [← max_assoc, max_eq_left hcn]
      rw [h2]
      by_cases hM : n < listMaxNat (l.map (fun c => c.2))
      · have hfind : (c.2 == listMaxNat (l.map (fun c => c.2))) = false := by
          simp
          omega
        have hMmax : max c.2 (listMaxNat (l.map (fun c => c.2))) =
            listMaxNat (l.map (fun c => c.2)) := by
          have : c.2 < listMaxNat (l.map (fun c => c.2)) := by omega
          exact max_eq_right (le_of_lt this)
        have hcond : n < max c.2 (listMaxNat (l.map (fun c => c.2))) := by
          rw [hMmax]
          exact hM
        simp only [if_pos hM, if_pos hcond, List.find?_cons, hfind, hMmax]
      · have hcond : ¬ (n < max c.2 (listMaxNat (l.map (fun c => c.2)))) := by
          have h := max_le hcn (by omega : listMaxNat (l.map (fun c => c.2)) ≤ n)
          omega
        simp only [if_neg hM, if_neg hcond]

/-- C9: when environment-variable lookup fails, `find_likelist_umu_match`
picks the first game (in iteration order) whose predicate-satisfied launch
key attains the maximal common-suffix length with the executable path,
returning `none` when no key shares any suffix; in particular, with launch
keys `<base>/bin/game.exe` and `<base>/game.exe` and executable
`/opt/whatever/bin/game.exe`, the entry with `<base>/bin/game.exe` wins. -/
theorem c9_longest_suffix_match :
    (∀ (ms : List (Str × GameManifest)) (exe : Str),
      find_likelist_umu_match ms exe =
        if 0 < candMax ms exe
        then ((launchCandidates ms exe).find?
          (fun c => c.2 == candMax ms exe)).map (fun c => c.1)
        else none) ∧
      find_likelist_umu_match
          [("game1".data, exampleM1), ("game2".data, exampleM2)]
          ("/opt/whatever/bin/game.exe".data) =
        some ("game1".data, exampleM1) := by
  constructor
  · intro ms exe
    unfold find_likelist_umu_match candMax
    rw [selFold_spec]
  · decide

end Cinc
